import Mathlib

/-!
Verification of the MR-Frequency-Sculptor k-space pipeline.

The Python source operates on 2D numpy arrays (real or complex).  We embed a
2D array as a shape (`rows`, `cols`) together with a total data function
`ℕ → ℕ → α`; entries outside the shape are junk that no theorem depends on.
Floating-point arithmetic is modelled by exact real/complex arithmetic, as the
specification's claims are all stated "up to floating-point tolerance".
-/

set_option maxHeartbeats 1000000

open scoped BigOperators

/-- A 2D numpy-style array: a shape and (total) element data. -/
structure Arr (α : Type) where
  rows : ℕ
  cols : ℕ
  data : ℕ → ℕ → α

/-- The unit-modulus phase factor `exp(2·π·i·t/N)` used by the discrete
Fourier transform of length `N`. -/
noncomputable def cisFrac (N : ℕ) (t : ℤ) : ℂ :=
  Complex.exp (2 * Real.pi * Complex.I * t / N)

/-- One-dimensional unnormalized forward DFT of length `N`
(`scipy.fft.fft` with the default "backward" norm):
`Y[k] = Σ_{m<N} y[m]·exp(-2πi·k·m/N)`. -/
noncomputable def dft1 (N : ℕ) (y : ℕ → ℂ) : ℕ → ℂ :=
  fun k => ∑ m ∈ Finset.range N, y m * cisFrac N (-((k : ℤ) * m))

/-- One-dimensional inverse DFT of length `N` with the `1/N` factor
(`scipy.fft.ifft`): `y[m] = (Σ_{k<N} Y[k]·exp(2πi·k·m/N)) / N`. -/
noncomputable def idft1 (N : ℕ) (Y : ℕ → ℂ) : ℕ → ℂ :=
  fun m => (∑ k ∈ Finset.range N, Y k * cisFrac N ((k : ℤ) * m)) / N

/-- `scipy.fft.fft2`: the 2D DFT, i.e. a 1D DFT along the column index
followed by a 1D DFT along the row index
(`X[k,l] = Σ_{m,n} x[m,n]·exp(-2πi·k·m/R)·exp(-2πi·l·n/C)`). -/
noncomputable def fft2 (a : Arr ℂ) : Arr ℂ :=
  ⟨a.rows, a.cols, fun k l => dft1 a.rows (fun m => dft1 a.cols (fun n => a.data m n) l) k⟩

/-- `scipy.fft.ifft2`: the 2D inverse DFT with the `1/(R·C)` normalization. -/
noncomputable def ifft2 (a : Arr ℂ) : Arr ℂ :=
  ⟨a.rows, a.cols, fun m n => idft1 a.rows (fun k => idft1 a.cols (fun l => a.data k l) n) m⟩

/-- `scipy.fft.fftshift` on both axes: `numpy` rolls each axis by `dim // 2`,
so `out[i] = in[(i - n//2) mod n]`, embedded for natural indices as
`out[i] = in[(i + (n - n//2)) % n]`. -/
def fftshift (a : Arr ℂ) : Arr ℂ :=
  ⟨a.rows, a.cols, fun i j =>
    a.data ((i + (a.rows - a.rows / 2)) % a.rows) ((j + (a.cols - a.cols / 2)) % a.cols)⟩

/-- `scipy.fft.ifftshift` on both axes: `numpy` rolls each axis by
`-(dim // 2)`, so `out[i] = in[(i + n//2) % n]`. -/
def ifftshift (a : Arr ℂ) : Arr ℂ :=
  ⟨a.rows, a.cols, fun i j => a.data ((i + a.rows / 2) % a.rows) ((j + a.cols / 2) % a.cols)⟩

/-- `np.abs` on a complex array: the element-wise complex modulus. -/
noncomputable def arrAbs (a : Arr ℂ) : Arr ℝ :=
  ⟨a.rows, a.cols, fun i j => Complex.abs (a.data i j)⟩

/-- `image_to_kspace` (processing.py): `fftshift(fft2(image))`. -/
noncomputable def image_to_kspace (image : Arr ℂ) : Arr ℂ :=
  fftshift (fft2 image)

/-- `reconstruct_image_from_kspace` (reconstruction.py):
`np.abs(ifft2(ifftshift(kspace)))`. -/
noncomputable def reconstruct_image_from_kspace (kspace : Arr ℂ) : Arr ℝ :=
  arrAbs (ifft2 (ifftshift kspace))

/-- Grid coordinate of `filters.py`: `u = np.arange(-rows // 2, rows // 2)`
(Python floor division, so the range starts at `-⌈rows/2⌉`), hence
`u[i] = i - ⌈rows/2⌉`, with `⌈rows/2⌉ = (rows + 1) / 2` in natural division. -/
def gridCoord (n i : ℕ) : ℤ :=
  (i : ℤ) - ((n + 1) / 2 : ℕ)

/-- `gaussian_kspace_mask` (filters.py): the centered Gaussian mask
`exp(-d² / (2σ²))` with `d² = u[i]² + v[j]²` on the meshgrid above and
`σ = sigma_fraction * max(rows, cols)`. -/
noncomputable def gaussian_kspace_mask (rows cols : ℕ) (sigma_fraction : ℝ) : Arr ℝ :=
  ⟨rows, cols, fun i j =>
    Real.exp (-((gridCoord rows i : ℝ) ^ 2 + (gridCoord cols j : ℝ) ^ 2) /
      (2 * (sigma_fraction * max (rows : ℝ) (cols : ℝ)) ^ 2))⟩

/-- Python's `int(rows * fraction / 2)` for the window half-extent:
truncation agrees with the floor for the non-negative values used here. -/
noncomputable def halfExtent (n : ℕ) (fraction : ℝ) : ℤ :=
  ⌊(n : ℝ) * fraction / 2⌋

/-- `simulate_partial_kspace` (filters.py): build a boolean mask that is
`True` exactly on the slice
`[center - half : center + half]` in each axis (`center = dim // 2`,
`half = int(dim * fraction / 2)`) and multiply.  The slice bounds are
non-negative for the fractions `0 ≤ fraction ≤ 1` the claims quantify over,
so the integer comparisons below coincide with Python's slicing. -/
noncomputable def simulate_partial_kspace (kspace : Arr ℂ) (fraction : ℝ) : Arr ℂ :=
  ⟨kspace.rows, kspace.cols, fun i j =>
    kspace.data i j *
      (if ((kspace.rows / 2 : ℕ) : ℤ) - halfExtent kspace.rows fraction ≤ (i : ℤ) ∧
          (i : ℤ) < ((kspace.rows / 2 : ℕ) : ℤ) + halfExtent kspace.rows fraction ∧
          ((kspace.cols / 2 : ℕ) : ℤ) - halfExtent kspace.cols fraction ≤ (j : ℤ) ∧
          (j : ℤ) < ((kspace.cols / 2 : ℕ) : ℤ) + halfExtent kspace.cols fraction
        then 1 else 0)⟩

/-- `apply_lowpass_filter` (filters.py): multiply k-space element-wise by the
(real) Gaussian mask built for its shape. -/
noncomputable def apply_lowpass_filter (kspace : Arr ℂ) (sigma_fraction : ℝ) : Arr ℂ :=
  ⟨kspace.rows, kspace.cols, fun i j =>
    kspace.data i j * ((gaussian_kspace_mask kspace.rows kspace.cols sigma_fraction).data i j : ℝ)⟩

/-- `apply_highpass_filter` (filters.py): multiply k-space element-wise by
`1 - mask`. -/
noncomputable def apply_highpass_filter (kspace : Arr ℂ) (sigma_fraction : ℝ) : Arr ℂ :=
  ⟨kspace.rows, kspace.cols, fun i j =>
    kspace.data i j *
      ((1 - (gaussian_kspace_mask kspace.rows kspace.cols sigma_fraction).data i j : ℝ) : ℂ)⟩

/-- `normalize_by_reference` (reconstruction.py): if `ref_max == 0` return a
copy of the image unchanged, else divide every element by `ref_max`. -/
noncomputable def normalize_by_reference (img : Arr ℝ) (ref_max : ℝ) : Arr ℝ :=
  if ref_max = 0 then img
  else ⟨img.rows, img.cols, fun i j => img.data i j / ref_max⟩

/-- `full_raw.max() if full_raw.size > 0 else 1.0` (processing.py): the
maximum entry of a non-empty array, and `1` for an empty one. -/
noncomputable def arrMax (a : Arr ℝ) : ℝ :=
  if h : 0 < a.rows ∧ 0 < a.cols then
    ((Finset.range a.rows) ×ˢ (Finset.range a.cols)).sup'
      ⟨(0, 0), Finset.mem_product.mpr
        ⟨Finset.mem_range.mpr h.1, Finset.mem_range.mpr h.2⟩⟩
      (fun p => a.data p.1 p.2)
  else 1

/-- `PARTIAL_KSpace_FRACTION` (config.py). -/
noncomputable def PARTIAL_KSpace_FRACTION : ℝ := 1 / 2

/-- `LOWPASS_SIGMA_FRACTION` (config.py). -/
noncomputable def LOWPASS_SIGMA_FRACTION : ℝ := 5 / 100

/-- `HIGHPASS_SIGMA_FRACTION` (config.py). -/
noncomputable def HIGHPASS_SIGMA_FRACTION : ℝ := 5 / 100

/-- `reconstruct_all_versions` (processing.py), restricted to its in-memory
numerical content (the image/array saving and printing are I/O collaborators
outside the core).  Returns the four normalized reconstructions
(full, partial, low-pass, high-pass) in pipeline order. -/
noncomputable def reconstruct_all_versions (kspace : Arr ℂ) :
    Arr ℝ × Arr ℝ × Arr ℝ × Arr ℝ :=
  let full_raw := reconstruct_image_from_kspace kspace
  let full_max := arrMax full_raw
  let full_img := normalize_by_reference full_raw full_max
  let partial_kspace := simulate_partial_kspace kspace PARTIAL_KSpace_FRACTION
  let partial_raw := reconstruct_image_from_kspace partial_kspace
  let partial_img := normalize_by_reference partial_raw full_max
  let lowpass_kspace := apply_lowpass_filter kspace LOWPASS_SIGMA_FRACTION
  let lowpass_raw := reconstruct_image_from_kspace lowpass_kspace
  let lowpass_img := normalize_by_reference lowpass_raw full_max
  let highpass_kspace := apply_highpass_filter kspace HIGHPASS_SIGMA_FRACTION
  let highpass_raw := reconstruct_image_from_kspace highpass_kspace
  let highpass_img := normalize_by_reference highpass_raw full_max
  (full_img, partial_img, lowpass_img, highpass_img)

/- ### Quality metrics (metrics.py), over real-valued arrays -/

/-- `numpy` broadcasting compatibility of one pair of dimensions. -/
def compatDim (d e : ℕ) : Prop := d = e ∨ d = 1 ∨ e = 1

instance (d e : ℕ) : Decidable (compatDim d e) := by
  unfold compatDim
  infer_instance

/-- Index into a possibly-broadcast axis: a length-1 axis is read at 0. -/
def bIdx (d i : ℕ) : ℕ := if d = 1 then 0 else i

/-- `numpy` element-wise subtraction of two 2D arrays: broadcasts each axis
of length 1, and raises (here: `none`) when the shapes are incompatible. -/
noncomputable def subBroadcast (a b : Arr ℝ) : Option (Arr ℝ) :=
  if compatDim a.rows b.rows ∧ compatDim a.cols b.cols then
    some ⟨max a.rows b.rows, max a.cols b.cols, fun i j =>
      a.data (bIdx a.rows i) (bIdx a.cols j) - b.data (bIdx b.rows i) (bIdx b.cols j)⟩
  else none

/-- `np.mean`: sum of all in-shape entries over the number of entries. -/
noncomputable def arrMean (a : Arr ℝ) : ℝ :=
  (∑ i ∈ Finset.range a.rows, ∑ j ∈ Finset.range a.cols, a.data i j) /
    (a.rows * a.cols)

/-- `np.abs` on a real array. -/
noncomputable def arrAbsR (a : Arr ℝ) : Arr ℝ :=
  ⟨a.rows, a.cols, fun i j => |a.data i j|⟩

/-- `calculate_mae` (metrics.py): `np.mean(np.abs(img1 - img2))`.  The
subtraction follows `numpy` broadcasting; there is no shape check in the
source, so a result is produced for every broadcast-compatible pair. -/
noncomputable def calculate_mae (img1 img2 : Arr ℝ) : Option ℝ :=
  (subBroadcast img1 img2).map (fun d => arrMean (arrAbsR d))

/-- `np.std`: population standard deviation,
`sqrt(mean((x - mean(x))²))`. -/
noncomputable def arrStd (a : Arr ℝ) : ℝ :=
  Real.sqrt (arrMean ⟨a.rows, a.cols, fun i j => (a.data i j - arrMean a) ^ 2⟩)

/-- `image[0:h, 0:w]`: Python slicing clamps the stop index at the array
bound. -/
def topLeftBlock (a : Arr ℝ) (h w : ℕ) : Arr ℝ :=
  ⟨min h a.rows, min w a.cols, a.data⟩

/-- `calculate_noise` (metrics.py): standard deviation of the top-left
corner block of size `max(1, int(H·corner_frac)) × max(1, int(W·corner_frac))`
(Python `int()` truncates; for the non-negative sizes here it is the floor). -/
noncomputable def calculate_noise (image : Arr ℝ) (corner_frac : ℝ) : ℝ :=
  arrStd (topLeftBlock image
    (max 1 (⌊(image.rows : ℝ) * corner_frac⌋.toNat))
    (max 1 (⌊(image.cols : ℝ) * corner_frac⌋.toNat)))

/-- The `noise` operation as the specification words it, for comparison with
the source's `calculate_noise`: block sizes
`max(1, round(H·cornerFraction)) × max(1, round(W·cornerFraction))`. -/
noncomputable def noiseSpecRound (image : Arr ℝ) (cornerFraction : ℝ) : ℝ :=
  arrStd (topLeftBlock image
    (max 1 (round ((image.rows : ℝ) * cornerFraction)).toNat)
    (max 1 (round ((image.cols : ℝ) * cornerFraction)).toNat))

/- ### DFT inversion -/

lemma cisFrac_mul_nat (N : ℕ) (d : ℤ) (k : ℕ) : cisFrac N ((k : ℤ) * d) = cisFrac N d ^ k := by
  unfold cisFrac
  rw [← Complex.exp_nat_mul]
  congr 1
  push_cast
  ring

lemma cisFrac_add (N : ℕ) (s t : ℤ) : cisFrac N (s + t) = cisFrac N s * cisFrac N t := by
  unfold cisFrac
  rw [← Complex.exp_add]
  congr 1
  push_cast
  ring

lemma cisFrac_zero (N : ℕ) : cisFrac N 0 = 1 := by
  simp [cisFrac]

lemma cisFrac_ne_one (N : ℕ) (d : ℤ) (hd : d ≠ 0) (habs : d.natAbs < N) :
    cisFrac N d ≠ 1 := by
  have hN : 0 < N := lt_of_le_of_lt (Nat.zero_le _) habs
  intro h
  rw [cisFrac, Complex.exp_eq_one_iff] at h
  obtain ⟨n, hn⟩ := h
  have hπ : (Real.pi : ℂ) ≠ 0 := by
    exact_mod_cast Real.pi_ne_zero
  have hNz : (N : ℂ) ≠ 0 := by
    exact_mod_cast hN.ne'
  have hmul : 2 * (Real.pi : ℂ) * Complex.I * d = n * (2 * Real.pi * Complex.I) * N := by
    have h1 := congrArg (fun z => z * (N : ℂ)) hn
    simpa [div_mul_cancel₀ _ hNz] using h1
  have h2 : (2 : ℂ) * Real.pi * Complex.I ≠ 0 := by
    simp [Complex.I_ne_zero, hπ]
  have hdn : (d : ℂ) = n * N := by
    apply mul_left_cancel₀ h2
    linear_combination hmul
  have hdz : d = n * N := by exact_mod_cast hdn
  have hdvd : (N : ℤ) ∣ d := ⟨n, by rw [hdz]; ring⟩
  have hle : N ≤ d.natAbs := by
    have hdvd2 := Int.natAbs_dvd_natAbs.mpr hdvd
    simpa using Nat.le_of_dvd (Int.natAbs_pos.mpr hd) hdvd2
  omega

/-- Orthogonality of the DFT characters: summing the phase
`exp(2πi·k·(m-m')/N)` over `k < N` gives `N` when `m = m'` and `0`
otherwise (for in-range `m`, `m'`). -/
lemma sum_cisFrac (N m mp : ℕ) (hm : m < N) (hmp : mp < N) :
    ∑ k ∈ Finset.range N, cisFrac N ((k : ℤ) * ((m : ℤ) - mp)) =
      if m = mp then (N : ℂ) else 0 := by
  by_cases h : m = mp
  · subst h
    simp [cisFrac_zero]
  · rw [if_neg h]
    have hd : (m : ℤ) - mp ≠ 0 := by
      intro hc
      exact h (by omega)
    have habs : ((m : ℤ) - mp).natAbs < N := by omega
    have hne1 : cisFrac N ((m : ℤ) - mp) ≠ 1 := cisFrac_ne_one N _ hd habs
    calc ∑ k ∈ Finset.range N, cisFrac N ((k : ℤ) * ((m : ℤ) - mp))
        = ∑ k ∈ Finset.range N, cisFrac N ((m : ℤ) - mp) ^ k := by
          refine Finset.sum_congr rfl fun k _ => ?_
          exact cisFrac_mul_nat N _ k
      _ = (cisFrac N ((m : ℤ) - mp) ^ N - 1) / (cisFrac N ((m : ℤ) - mp) - 1) :=
          geom_sum_eq hne1 N
      _ = 0 := by
          have hpow : cisFrac N ((m : ℤ) - mp) ^ N = 1 := by
            rw [← cisFrac_mul_nat]
            unfold cisFrac
            have hN : (N : ℂ) ≠ 0 := by
              have hp : 0 < N := lt_of_le_of_lt (Nat.zero_le _) hm
              exact_mod_cast hp.ne'
            refine Eq.trans (congrArg Complex.exp ?_)
              (Complex.exp_int_mul_two_pi_mul_I ((m : ℤ) - mp))
            push_cast
            field_simp
            ring
          rw [hpow, sub_self, zero_div]

/-- 1D inversion: `idft1 N` is a left inverse of `dft1 N` on in-range indices. -/
lemma idft1_dft1 (N : ℕ) (y : ℕ → ℂ) (m : ℕ) (hm : m < N) :
    idft1 N (dft1 N y) m = y m := by
  have hN : 0 < N := lt_of_le_of_lt (Nat.zero_le _) hm
  have hNz : (N : ℂ) ≠ 0 := by exact_mod_cast hN.ne'
  unfold idft1 dft1
  have key : ∑ k ∈ Finset.range N,
      (∑ mp ∈ Finset.range N, y mp * cisFrac N (-((k : ℤ) * mp))) * cisFrac N ((k : ℤ) * m) =
      ∑ mp ∈ Finset.range N, y mp *
        ∑ k ∈ Finset.range N, cisFrac N ((k : ℤ) * ((m : ℤ) - mp)) := by
    simp only [Finset.sum_mul]
    rw [Finset.sum_comm]
    refine Finset.sum_congr rfl fun mp _ => ?_
    rw [Finset.mul_sum]
    refine Finset.sum_congr rfl fun k _ => ?_
    rw [mul_assoc, ← cisFrac_add]
    congr 2
    ring
  rw [key]
  have key2 : ∑ mp ∈ Finset.range N,
      y mp * ∑ k ∈ Finset.range N, cisFrac N ((k : ℤ) * ((m : ℤ) - mp)) = y m * N := by
    rw [Finset.sum_eq_single_of_mem m (Finset.mem_range.mpr hm)]
    · rw [sum_cisFrac N m m hm hm, if_pos rfl]
    · intro mp hmp hne
      rw [sum_cisFrac N m mp hm (Finset.mem_range.mp hmp),
        if_neg (fun hc => hne hc.symm), mul_zero]
  rw [key2, mul_div_cancel_right₀ _ hNz]

/-- `idft1` is linear over finite sums of scaled signals. -/
lemma idft1_sum_mul (M : ℕ) (s : Finset ℕ) (f : ℕ → ℕ → ℂ) (c : ℕ → ℂ) (n : ℕ) :
    idft1 M (fun l => ∑ j ∈ s, f j l * c j) n = ∑ j ∈ s, idft1 M (f j) n * c j := by
  unfold idft1
  simp only [Finset.sum_mul, Finset.sum_div]
  rw [Finset.sum_comm]
  refine Finset.sum_congr rfl fun j _ => ?_
  refine Finset.sum_congr rfl fun l _ => ?_
  ring

/-- 2D inversion: `ifft2` undoes `fft2` on in-range indices. -/
lemma ifft2_fft2 (a : Arr ℂ) (m n : ℕ) (hm : m < a.rows) (hn : n < a.cols) :
    (ifft2 (fft2 a)).data m n = a.data m n := by
  show idft1 a.rows (fun k => idft1 a.cols (fun l => (fft2 a).data k l) n) m = a.data m n
  have hinner : ∀ k, idft1 a.cols (fun l => (fft2 a).data k l) n =
      dft1 a.rows (fun mp => a.data mp n) k := by
    intro k
    have h1 := idft1_sum_mul a.cols (Finset.range a.rows)
      (fun mp l => dft1 a.cols (fun q => a.data mp q) l)
      (fun mp => cisFrac a.rows (-((k : ℤ) * mp))) n
    show idft1 a.cols (fun l =>
      ∑ mp ∈ Finset.range a.rows,
        dft1 a.cols (fun q => a.data mp q) l * cisFrac a.rows (-((k : ℤ) * mp))) n = _
    rw [h1]
    show _ = ∑ mp ∈ Finset.range a.rows, a.data mp n * cisFrac a.rows (-((k : ℤ) * mp))
    refine Finset.sum_congr rfl fun mp _ => ?_
    rw [idft1_dft1 a.cols (fun q => a.data mp q) n hn]
  rw [show (fun k => idft1 a.cols (fun l => (fft2 a).data k l) n) =
      fun k => dft1 a.rows (fun mp => a.data mp n) k from funext hinner]
  exact idft1_dft1 a.rows _ m hm

/- ### Centering-shift inversion -/

lemma shift_unshift (n i : ℕ) (hi : i < n) : ((i + n / 2) % n + (n - n / 2)) % n = i := by
  rw [Nat.mod_add_mod]
  have h1 : i + n / 2 + (n - n / 2) = i + n := by omega
  rw [h1, Nat.add_mod_right, Nat.mod_eq_of_lt hi]

/-- `ifftshift` undoes `fftshift` on in-range indices. -/
lemma ifftshift_fftshift (a : Arr ℂ) (i j : ℕ) (hi : i < a.rows) (hj : j < a.cols) :
    (ifftshift (fftshift a)).data i j = a.data i j := by
  show a.data (((i + a.rows / 2) % a.rows + (a.rows - a.rows / 2)) % a.rows)
      (((j + a.cols / 2) % a.cols + (a.cols - a.cols / 2)) % a.cols) = a.data i j
  rw [shift_unshift a.rows i hi, shift_unshift a.cols j hj]

/-- The value of `ifft2` at any index depends only on the in-range entries of
its argument. -/
lemma ifft2_data_congr (X Y : Arr ℂ) (hR : X.rows = Y.rows) (hC : X.cols = Y.cols)
    (h : ∀ k l, k < X.rows → l < X.cols → X.data k l = Y.data k l) (m n : ℕ) :
    (ifft2 X).data m n = (ifft2 Y).data m n := by
  show idft1 X.rows (fun k => idft1 X.cols (fun l => X.data k l) n) m =
    idft1 Y.rows (fun k => idft1 Y.cols (fun l => Y.data k l) n) m
  rw [← hR, ← hC]
  have hsum : ∀ k, k < X.rows →
      (∑ l ∈ Finset.range X.cols, X.data k l * cisFrac X.cols ((l : ℤ) * n)) =
      ∑ l ∈ Finset.range X.cols, Y.data k l * cisFrac X.cols ((l : ℤ) * n) := by
    intro k hk
    exact Finset.sum_congr rfl fun l hl => by
      rw [h k l hk (Finset.mem_range.mp hl)]
  unfold idft1
  congr 1
  refine Finset.sum_congr rfl fun k hk => ?_
  exact congrArg (fun z => z / (X.cols : ℂ) * cisFrac X.rows ((k : ℤ) * m))
    (hsum k (Finset.mem_range.mp hk))

/- ### Helper facts about the filters -/

lemma halfExtent_one (n : ℕ) : halfExtent n 1 = ((n / 2 : ℕ) : ℤ) := by
  unfold halfExtent
  rw [mul_one]
  have h1 : (n : ℝ) / 2 = (((n : ℚ) / 2 : ℚ) : ℝ) := by push_cast; ring
  rw [h1, Rat.floor_cast]
  have h2 : ((n : ℚ) / 2) = ((n : ℤ) : ℚ) / ((2 : ℕ) : ℚ) := by push_cast; ring
  rw [h2, Rat.floor_intCast_div_natCast]
  omega

/- ### Claim theorems -/

/-- C1: for every non-empty 2D complex array, the forward transform
(`image_to_kspace`: 2D FFT then centering shift) followed by the inverse
(`reconstruct_image_from_kspace`: undo the shift, inverse 2D FFT, magnitude)
recovers the element-wise absolute value of the input, for even and odd
dimensions alike; exact complex arithmetic models the floating-point
computation up to tolerance. -/
theorem roundtrip_recovers_abs (a : Arr ℂ) (i j : ℕ)
    (hi : i < a.rows) (hj : j < a.cols) :
    (reconstruct_image_from_kspace (image_to_kspace a)).data i j =
      Complex.abs (a.data i j) := by
  show Complex.abs ((ifft2 (ifftshift (fftshift (fft2 a)))).data i j) = _
  rw [ifft2_data_congr (ifftshift (fftshift (fft2 a))) (fft2 a) rfl rfl
    (fun k l hk hl => ifftshift_fftshift (fft2 a) k l hk hl) i j]
  rw [ifft2_fft2 a i j hi hj]

/-- Witness for C1 at a concrete 1×1 complex array. -/
theorem roundtrip_recovers_abs_witness :
    (reconstruct_image_from_kspace
        (image_to_kspace ⟨1, 1, fun _ _ => Complex.I⟩)).data 0 0 =
      Complex.abs ((⟨1, 1, fun _ _ => Complex.I⟩ : Arr ℂ).data 0 0) :=
  roundtrip_recovers_abs ⟨1, 1, fun _ _ => Complex.I⟩ 0 0 (by decide) (by decide)

/-- C2: for every frequency array and every positive sigma fraction, the
element-wise sum of the low-pass and high-pass filtered arrays is the
original array exactly, because the Gaussian mask and its complement sum
to 1 at every element. -/
theorem lowpass_highpass_complementary (F : Arr ℂ) (σf : ℝ) (hσ : 0 < σf) (i j : ℕ) :
    (apply_lowpass_filter F σf).data i j + (apply_highpass_filter F σf).data i j =
      F.data i j := by
  show F.data i j * _ + F.data i j * _ = F.data i j
  push_cast
  ring

/-- Witness for C2 at a concrete 1×1 array and sigma fraction 1/20. -/
theorem lowpass_highpass_complementary_witness :
    (apply_lowpass_filter ⟨1, 1, fun _ _ => 2⟩ (1 / 20)).data 0 0 +
      (apply_highpass_filter ⟨1, 1, fun _ _ => 2⟩ (1 / 20)).data 0 0 =
      (⟨1, 1, fun _ _ => (2 : ℂ)⟩ : Arr ℂ).data 0 0 :=
  lowpass_highpass_complementary ⟨1, 1, fun _ _ => 2⟩ (1 / 20) (by norm_num) 0 0

/-- C4: for a fraction in (0,1], `simulate_partial_kspace` equals the input
inside the centered window with half-extents `⌊dim·fraction/2⌋` around the
center `dim // 2`, and is zero outside it. -/
theorem partial_window_characterization (F : Arr ℂ) (fraction : ℝ)
    (hf0 : 0 < fraction) (hf1 : fraction ≤ 1) (i j : ℕ)
    (hi : i < F.rows) (hj : j < F.cols) :
    ((((F.rows / 2 : ℕ) : ℤ) - halfExtent F.rows fraction ≤ (i : ℤ) ∧
        (i : ℤ) < ((F.rows / 2 : ℕ) : ℤ) + halfExtent F.rows fraction ∧
        ((F.cols / 2 : ℕ) : ℤ) - halfExtent F.cols fraction ≤ (j : ℤ) ∧
        (j : ℤ) < ((F.cols / 2 : ℕ) : ℤ) + halfExtent F.cols fraction) →
      (simulate_partial_kspace F fraction).data i j = F.data i j) ∧
    (¬(((F.rows / 2 : ℕ) : ℤ) - halfExtent F.rows fraction ≤ (i : ℤ) ∧
        (i : ℤ) < ((F.rows / 2 : ℕ) : ℤ) + halfExtent F.rows fraction ∧
        ((F.cols / 2 : ℕ) : ℤ) - halfExtent F.cols fraction ≤ (j : ℤ) ∧
        (j : ℤ) < ((F.cols / 2 : ℕ) : ℤ) + halfExtent F.cols fraction) →
      (simulate_partial_kspace F fraction).data i j = 0) := by
  constructor
  · intro h
    show F.data i j * _ = F.data i j
    rw [if_pos h, mul_one]
  · intro h
    show F.data i j * _ = 0
    rw [if_neg h, mul_zero]

/-- Witness for C4: a 4×4 array at fraction 1/2 keeps the in-window
element (2,2). -/
theorem partial_window_characterization_witness :
    (simulate_partial_kspace ⟨4, 4, fun _ _ => (1 : ℂ)⟩ (1 / 2)).data 2 2 =
      (⟨4, 4, fun _ _ => (1 : ℂ)⟩ : Arr ℂ).data 2 2 :=
  (partial_window_characterization ⟨4, 4, fun _ _ => 1⟩ (1 / 2) (by norm_num)
    (by norm_num) 2 2 (by norm_num) (by norm_num)).1 (by
      have h : halfExtent 4 (1 / 2) = 1 := by
        unfold halfExtent
        norm_num
      show ((4 / 2 : ℕ) : ℤ) - halfExtent 4 (1 / 2) ≤ 2 ∧
        (2 : ℤ) < ((4 / 2 : ℕ) : ℤ) + halfExtent 4 (1 / 2) ∧
        ((4 / 2 : ℕ) : ℤ) - halfExtent 4 (1 / 2) ≤ 2 ∧
        (2 : ℤ) < ((4 / 2 : ℕ) : ℤ) + halfExtent 4 (1 / 2)
      rw [h]
      norm_num)

/-- C5: `normalize_by_reference` with a zero reference returns the image
unchanged (no division happens, so no NaN/Inf can arise in the model), and
with a nonzero reference returns the same-shape array of element-wise
quotients. -/
theorem normalize_by_reference_behaviour (img : Arr ℝ) :
    normalize_by_reference img 0 = img ∧
    ∀ ref_max : ℝ, ref_max ≠ 0 →
      (normalize_by_reference img ref_max).rows = img.rows ∧
      (normalize_by_reference img ref_max).cols = img.cols ∧
      ∀ i j, (normalize_by_reference img ref_max).data i j = img.data i j / ref_max := by
  constructor
  · simp [normalize_by_reference]
  · intro r hr
    simp [normalize_by_reference, hr]

/-- Witness for C5 at a concrete 1×1 image and reference 2. -/
theorem normalize_by_reference_behaviour_witness :
    (normalize_by_reference ⟨1, 1, fun _ _ => 3⟩ 2).data 0 0 =
      (⟨1, 1, fun _ _ => (3 : ℝ)⟩ : Arr ℝ).data 0 0 / 2 :=
  ((normalize_by_reference_behaviour ⟨1, 1, fun _ _ => 3⟩).2 2 (by norm_num)).2.2 0 0

/-- C9: each filter returns a new array of the same shape as its input; in
this pure embedding of the source's numpy operations (which all allocate
fresh arrays) the input array itself is left untouched. -/
theorem filters_preserve_shape (F : Arr ℂ) (fraction σl σh : ℝ) :
    (simulate_partial_kspace F fraction).rows = F.rows ∧
    (simulate_partial_kspace F fraction).cols = F.cols ∧
    (apply_lowpass_filter F σl).rows = F.rows ∧
    (apply_lowpass_filter F σl).cols = F.cols ∧
    (apply_highpass_filter F σh).rows = F.rows ∧
    (apply_highpass_filter F σh).cols = F.cols :=
  ⟨rfl, rfl, rfl, rfl, rfl, rfl⟩

/-- C10: at fraction 1, `simulate_partial_kspace` is the identity on arrays
with both dimensions even, and zeroes the last row (resp. column) when the
row (resp. column) count is odd. -/
theorem partial_fraction_one (F : Arr ℂ) :
    (F.rows % 2 = 0 → F.cols % 2 = 0 → ∀ i j, i < F.rows → j < F.cols →
      (simulate_partial_kspace F 1).data i j = F.data i j) ∧
    (F.rows % 2 = 1 → ∀ j, (simulate_partial_kspace F 1).data (F.rows - 1) j = 0) ∧
    (F.cols % 2 = 1 → ∀ i, (simulate_partial_kspace F 1).data i (F.cols - 1) = 0) := by
  refine ⟨?_, ?_, ?_⟩
  · intro hr hc i j hi hj
    show F.data i j * _ = F.data i j
    rw [if_pos, mul_one]
    refine ⟨?_, ?_, ?_, ?_⟩ <;> rw [halfExtent_one] <;> omega
  · intro hr j
    show F.data (F.rows - 1) j * _ = 0
    rw [if_neg, mul_zero]
    rw [halfExtent_one, halfExtent_one]
    rintro ⟨h1, h2, h3, h4⟩
    omega
  · intro hc i
    show F.data i (F.cols - 1) * _ = 0
    rw [if_neg, mul_zero]
    rw [halfExtent_one, halfExtent_one]
    rintro ⟨h1, h2, h3, h4⟩
    omega

/-- Witness for C10: identity on a 2×2 array, and last-row zeroing on 3×3. -/
theorem partial_fraction_one_witness :
    (simulate_partial_kspace ⟨2, 2, fun _ _ => (1 : ℂ)⟩ 1).data 0 0 =
      (⟨2, 2, fun _ _ => (1 : ℂ)⟩ : Arr ℂ).data 0 0 ∧
    (simulate_partial_kspace ⟨3, 3, fun _ _ => (1 : ℂ)⟩ 1).data 2 0 = 0 :=
  ⟨(partial_fraction_one ⟨2, 2, fun _ _ => 1⟩).1 (by decide) (by decide) 0 0
      (by decide) (by decide),
    (partial_fraction_one ⟨3, 3, fun _ _ => 1⟩).2.1 (by decide) 0⟩

/-- C6 (amended): for a positive sigma fraction every in-shape element of
the Gaussian mask lies in (0,1], and an element equals 1 exactly at index
`((rows+1)/2, (cols+1)/2)` — the zero of `arange(-dim//2, dim//2)` — which
for odd dimensions is one past the centered zero-frequency index `dim//2`,
and for a dimension of size 1 lies outside the array altogether. -/
theorem gaussian_mask_bounds_peak (rows cols : ℕ) (σf : ℝ) (hσ : 0 < σf)
    (i j : ℕ) (hi : i < rows) (hj : j < cols) :
    (0 < (gaussian_kspace_mask rows cols σf).data i j ∧
      (gaussian_kspace_mask rows cols σf).data i j ≤ 1) ∧
    ((gaussian_kspace_mask rows cols σf).data i j = 1 ↔
      i = (rows + 1) / 2 ∧ j = (cols + 1) / 2) := by
  have hrow1 : (1 : ℝ) ≤ max (rows : ℝ) (cols : ℝ) := by
    have h1 : (1 : ℝ) ≤ (rows : ℝ) := by
      have : 1 ≤ rows := by omega
      exact_mod_cast this
    exact le_trans h1 (le_max_left _ _)
  have hσpos : 0 < σf * max (rows : ℝ) (cols : ℝ) :=
    mul_pos hσ (lt_of_lt_of_le zero_lt_one hrow1)
  have hden : 0 < 2 * (σf * max (rows : ℝ) (cols : ℝ)) ^ 2 := by
    have h2 := pow_pos hσpos 2
    linarith
  have hd2 : 0 ≤ (gridCoord rows i : ℝ) ^ 2 + (gridCoord cols j : ℝ) ^ 2 := by positivity
  show (0 < Real.exp _ ∧ Real.exp _ ≤ 1) ∧ (Real.exp _ = 1 ↔ _)
  refine ⟨⟨Real.exp_pos _, ?_⟩, ?_⟩
  · rw [Real.exp_le_one_iff, neg_div]
    exact neg_nonpos.mpr (div_nonneg hd2 hden.le)
  · rw [Real.exp_eq_one_iff, neg_div, neg_eq_zero, div_eq_zero_iff]
    constructor
    · rintro (h0 | h0)
      · have h1 : (gridCoord rows i : ℝ) = 0 := by
          nlinarith [sq_nonneg (gridCoord rows i : ℝ), sq_nonneg (gridCoord cols j : ℝ)]
        have h2 : (gridCoord cols j : ℝ) = 0 := by
          nlinarith [sq_nonneg (gridCoord rows i : ℝ), sq_nonneg (gridCoord cols j : ℝ)]
        have h3 : gridCoord rows i = 0 := by exact_mod_cast h1
        have h4 : gridCoord cols j = 0 := by exact_mod_cast h2
        unfold gridCoord at h3 h4
        omega
      · exact absurd h0 hden.ne'
    · rintro ⟨hieq, hjeq⟩
      left
      have h3 : gridCoord rows i = 0 := by unfold gridCoord; omega
      have h4 : gridCoord cols j = 0 := by unfold gridCoord; omega
      rw [h3, h4]
      norm_num

/-- Witness for C6's amended theorem on a 2×2 mask. -/
theorem gaussian_mask_bounds_peak_witness :
    0 < (gaussian_kspace_mask 2 2 1).data 0 0 ∧
      (gaussian_kspace_mask 2 2 1).data 0 0 ≤ 1 :=
  (gaussian_mask_bounds_peak 2 2 1 (by norm_num) 0 0 (by norm_num) (by norm_num)).1

/-- Counterexample for C6 as stated: on a 3×3 mask the value at the
centered-convention zero-frequency index (1,1) is strictly below 1, while
the value 1 is attained at (2,2) instead. -/
theorem gaussian_mask_center_counterexample :
    (gaussian_kspace_mask 3 3 (1 / 10)).data 1 1 < 1 ∧
    (gaussian_kspace_mask 3 3 (1 / 10)).data 2 2 = 1 := by
  constructor
  · show Real.exp _ < 1
    rw [Real.exp_lt_one_iff]
    have h : (gridCoord 3 1 : ℝ) = -1 := by norm_num [gridCoord]
    rw [h]
    norm_num
  · show Real.exp _ = 1
    have h : (gridCoord 3 2 : ℝ) = 0 := by norm_num [gridCoord]
    rw [h]
    norm_num

/-- C7 (amended): `calculate_mae` has no shape check; it produces a result
exactly when the two shapes are numpy-broadcast-compatible (each axis equal
or of length 1), silently broadcasting differing shapes in that case. -/
theorem mae_defined_iff_broadcast_compatible (img1 img2 : Arr ℝ) :
    (calculate_mae img1 img2).isSome = true ↔
      (compatDim img1.rows img2.rows ∧ compatDim img1.cols img2.cols) := by
  unfold calculate_mae subBroadcast
  by_cases h : compatDim img1.rows img2.rows ∧ compatDim img1.cols img2.cols
  · simp [h]
  · simp [h]

/-- Counterexample for C7 as stated: a 2×2 and a 1×2 array have differing
dimensions, yet `calculate_mae` produces a result (numpy broadcasting)
instead of rejecting the call. -/
theorem mae_broadcasts_counterexample :
    (calculate_mae ⟨2, 2, fun _ _ => 1⟩ ⟨1, 2, fun _ _ => 0⟩).isSome = true ∧
      (⟨2, 2, fun _ _ => (1 : ℝ)⟩ : Arr ℝ).rows ≠
        (⟨1, 2, fun _ _ => (0 : ℝ)⟩ : Arr ℝ).rows := by
  constructor
  · unfold calculate_mae subBroadcast
    rw [if_pos ⟨Or.inr (Or.inr rfl), Or.inl rfl⟩]
    rfl
  · show (2 : ℕ) ≠ 1
    omega

/-- C8 (amended): `calculate_noise` returns the standard deviation of the
top-left block whose sizes use Python `int()` truncation (the floor, for
these non-negative values), `max(1, ⌊H·f⌋) × max(1, ⌊W·f⌋)` — not
`round`. -/
theorem noise_block_floor (image : Arr ℝ) (f : ℝ)
    (hr : (⌊(image.rows : ℝ) * f⌋).toNat ≤ image.rows)
    (hc : (⌊(image.cols : ℝ) * f⌋).toNat ≤ image.cols)
    (hr1 : 1 ≤ image.rows) (hc1 : 1 ≤ image.cols) :
    calculate_noise image f =
      arrStd ⟨max 1 (⌊(image.rows : ℝ) * f⌋).toNat,
        max 1 (⌊(image.cols : ℝ) * f⌋).toNat, image.data⟩ := by
  unfold calculate_noise topLeftBlock
  have h1 : min (max 1 (⌊(image.rows : ℝ) * f⌋).toNat) image.rows =
      max 1 (⌊(image.rows : ℝ) * f⌋).toNat := by omega
  have h2 : min (max 1 (⌊(image.cols : ℝ) * f⌋).toNat) image.cols =
      max 1 (⌊(image.cols : ℝ) * f⌋).toNat := by omega
  rw [h1, h2]

/-- Witness for C8's amended theorem on a 1×1 image at fraction 0. -/
theorem noise_block_floor_witness :
    calculate_noise ⟨1, 1, fun _ _ => 5⟩ 0 =
      arrStd ⟨max 1 (⌊((1 : ℕ) : ℝ) * 0⌋).toNat,
        max 1 (⌊((1 : ℕ) : ℝ) * 0⌋).toNat, fun _ _ => 5⟩ :=
  noise_block_floor ⟨1, 1, fun _ _ => 5⟩ 0 (by norm_num) (by norm_num)
    (by norm_num) (by norm_num)

/-- Counterexample for C8 as stated: on a 19×19 image with a single zero
pixel at the origin, `corner_frac = 0.08` gives `19·0.08 = 1.52`, so the
code's `int()` makes a 1×1 corner (standard deviation 0) while the claim's
`round` specifies a 2×2 corner with nonzero standard deviation. -/
theorem noise_round_counterexample :
    calculate_noise
        ⟨19, 19, fun i j => if i = 0 ∧ j = 0 then 0 else 1⟩ (2 / 25) ≠
      noiseSpecRound
        ⟨19, 19, fun i j => if i = 0 ∧ j = 0 then 0 else 1⟩ (2 / 25) := by
  have hfloor : (⌊((19 : ℕ) : ℝ) * (2 / 25)⌋).toNat = 1 := by
    have h : ⌊((19 : ℕ) : ℝ) * (2 / 25)⌋ = 1 := by
      rw [Int.floor_eq_iff] <;> norm_num
    rw [h]
    rfl
  have hround : (round (((19 : ℕ) : ℝ) * (2 / 25))).toNat = 2 := by
    have h : round (((19 : ℕ) : ℝ) * (2 / 25)) = 2 := by
      rw [round_eq, Int.floor_eq_iff] <;> norm_num
    rw [h]
    rfl
  have hcode : calculate_noise
      ⟨19, 19, fun i j => if i = 0 ∧ j = 0 then 0 else 1⟩ (2 / 25) = 0 := by
    unfold calculate_noise topLeftBlock
    rw [hfloor]
    show arrStd ⟨min (max 1 1) 19, min (max 1 1) 19, _⟩ = 0
    unfold arrStd arrMean
    norm_num [Finset.sum_range_one]
  have hspec : noiseSpecRound
      ⟨19, 19, fun i j => if i = 0 ∧ j = 0 then 0 else 1⟩ (2 / 25) ≠ 0 := by
    unfold noiseSpecRound topLeftBlock
    rw [hround]
    show arrStd ⟨min (max 1 2) 19, min (max 1 2) 19, _⟩ ≠ 0
    unfold arrStd arrMean
    have hmean : ((∑ i ∈ Finset.range (min (max 1 2) 19),
        ∑ j ∈ Finset.range (min (max 1 2) 19),
          (if i = 0 ∧ j = 0 then (0 : ℝ) else 1)) /
        ((min (max 1 2) 19 : ℕ) * (min (max 1 2) 19 : ℕ)) : ℝ) = 3 / 4 := by
      norm_num [Finset.sum_range_succ]
    rw [hmean]
    have hvar : ((∑ i ∈ Finset.range (min (max 1 2) 19),
        ∑ j ∈ Finset.range (min (max 1 2) 19),
          ((if i = 0 ∧ j = 0 then (0 : ℝ) else 1) - 3 / 4) ^ 2) /
        ((min (max 1 2) 19 : ℕ) * (min (max 1 2) 19 : ℕ)) : ℝ) = 3 / 16 := by
      norm_num [Finset.sum_range_succ]
    rw [hvar]
    have : (0 : ℝ) < Real.sqrt (3 / 16) := Real.sqrt_pos.mpr (by norm_num)
    exact this.ne'
  rw [hcode]
  exact fun h => hspec h.symm

/-- A length-1 inverse DFT is the identity sample. -/
lemma idft1_length_one (Y : ℕ → ℂ) (m : ℕ) : idft1 1 Y m = Y 0 := by
  unfold idft1
  rw [Finset.sum_range_one]
  simp [cisFrac_zero]

/-- Concrete evaluation: the full reconstruction of the constant 1×1
k-space array is the constant 1 image at (0,0). -/
lemma recon_one_one :
    (reconstruct_image_from_kspace ⟨1, 1, fun _ _ => 1⟩).data 0 0 = 1 := by
  show Complex.abs (idft1 1 (fun k => idft1 1
    (fun l => (ifftshift ⟨1, 1, fun _ _ => 1⟩).data k l) 0) 0) = 1
  rw [idft1_length_one, idft1_length_one]
  show Complex.abs ((⟨1, 1, fun _ _ => 1⟩ : Arr ℂ).data ((0 + 1 / 2) % 1) ((0 + 1 / 2) % 1)) = 1
  simp

/-- Concrete evaluation: the reference maximum of that reconstruction is 1. -/
lemma arrMax_recon_one_one :
    arrMax (reconstruct_image_from_kspace ⟨1, 1, fun _ _ => 1⟩) = 1 := by
  unfold arrMax
  rw [dif_pos (⟨Nat.one_pos, Nat.one_pos⟩ :
    0 < (reconstruct_image_from_kspace ⟨1, 1, fun _ _ => 1⟩).rows ∧
    0 < (reconstruct_image_from_kspace ⟨1, 1, fun _ _ => 1⟩).cols)]
  have hmem : ((0, 0) : ℕ × ℕ) ∈ (Finset.range 1) ×ˢ (Finset.range 1) :=
    Finset.mem_product.mpr ⟨Finset.mem_range.mpr Nat.one_pos, Finset.mem_range.mpr Nat.one_pos⟩
  apply le_antisymm
  · apply Finset.sup'_le
    intro p hp
    rcases Finset.mem_product.mp hp with ⟨h1, h2⟩
    rw [Finset.mem_range] at h1 h2
    have hrw : (reconstruct_image_from_kspace ⟨1, 1, fun _ _ => 1⟩).rows = 1 := rfl
    have hcw : (reconstruct_image_from_kspace ⟨1, 1, fun _ _ => 1⟩).cols = 1 := rfl
    rw [hrw] at h1
    rw [hcw] at h2
    have hp1 : p.1 = 0 := by omega
    have hp2 : p.2 = 0 := by omega
    rw [hp1, hp2, recon_one_one]
  · exact le_trans (le_of_eq recon_one_one.symm)
      (Finset.le_sup' (fun p : ℕ × ℕ =>
        (reconstruct_image_from_kspace ⟨1, 1, fun _ _ => 1⟩).data p.1 p.2) hmem)

/-- C3: in `reconstruct_all_versions` all four outputs (full, partial,
low-pass, high-pass) are normalized by the one shared divisor — the maximum
of the full (unfiltered) reconstruction — and never by a variant's own
maximum: multiplying each output by that single reference maximum recovers
exactly that variant's raw reconstruction. -/
theorem shared_normalization_divisor (kspace : Arr ℂ)
    (hM : arrMax (reconstruct_image_from_kspace kspace) ≠ 0) (i j : ℕ) :
    ((reconstruct_all_versions kspace).1.data i j *
        arrMax (reconstruct_image_from_kspace kspace) =
      (reconstruct_image_from_kspace kspace).data i j) ∧
    ((reconstruct_all_versions kspace).2.1.data i j *
        arrMax (reconstruct_image_from_kspace kspace) =
      (reconstruct_image_from_kspace
        (simulate_partial_kspace kspace PARTIAL_KSpace_FRACTION)).data i j) ∧
    ((reconstruct_all_versions kspace).2.2.1.data i j *
        arrMax (reconstruct_image_from_kspace kspace) =
      (reconstruct_image_from_kspace
        (apply_lowpass_filter kspace LOWPASS_SIGMA_FRACTION)).data i j) ∧
    ((reconstruct_all_versions kspace).2.2.2.data i j *
        arrMax (reconstruct_image_from_kspace kspace) =
      (reconstruct_image_from_kspace
        (apply_highpass_filter kspace HIGHPASS_SIGMA_FRACTION)).data i j) := by
  unfold reconstruct_all_versions
  simp only [normalize_by_reference, if_neg hM]
  exact ⟨div_mul_cancel₀ _ hM, div_mul_cancel₀ _ hM,
    div_mul_cancel₀ _ hM, div_mul_cancel₀ _ hM⟩

/-- Witness for C3 at the concrete 1×1 all-ones k-space, whose reference
maximum is 1 (nonzero). -/
theorem shared_normalization_divisor_witness :
    (reconstruct_all_versions ⟨1, 1, fun _ _ => 1⟩).1.data 0 0 *
        arrMax (reconstruct_image_from_kspace ⟨1, 1, fun _ _ => 1⟩) =
      (reconstruct_image_from_kspace ⟨1, 1, fun _ _ => 1⟩).data 0 0 :=
  (shared_normalization_divisor ⟨1, 1, fun _ _ => 1⟩
    (by rw [arrMax_recon_one_one]; norm_num) 0 0).1
